import Mathlib

/-!
Verification of the qDat repository: a shallow embedding of its
equation builder (`sympycfg2.py`, `CFG2CFG.py`), the multiprocess metric
scheduler (`command.py`), the weak-composition enumerator (`recursion.py`),
the grammar language enumerator (`recursion2.py`) and the feature-vector
export (`command.py`, `do_vector`), together with theorems settling the
specification claims about them.
-/

namespace QDat

/-! ## Symbolic expressions for the sympy-based builder (`sympycfg2.py`)

`sympycfg2.calculateSystem` builds sympy expressions from the edge list.
We embed the expressions it constructs as a syntax tree: `X` is the length
variable `x`, `sym n` is the node symbol `symbols(chr(n + 65))`. -/

inductive Expr where
  | X : Expr
  | sym : Nat → Expr
  | intC : Int → Expr
  | add : Expr → Expr → Expr
  | mul : Expr → Expr → Expr
  | pow : Expr → Nat → Expr
  | sub : Expr → Expr → Expr
deriving DecidableEq, Repr

/-- Evaluation of an expression at node-symbol assignment `σ` and length
variable value `x`. -/
def Expr.eval (σ : Nat → Int) (x : Int) : Expr → Int
  | X => x
  | sym n => σ n
  | intC z => z
  | add a b => a.eval σ x + b.eval σ x
  | mul a b => a.eval σ x * b.eval σ x
  | pow a k => (a.eval σ x) ^ k
  | sub a b => a.eval σ x - b.eval σ x

/-- One step of the `edgedict` construction shared by `sympycfg2.py` and
`CFG2CFG.py` (lines 30-37 resp. 28-35): append the edge end to the list at
key `s`, or add a new key at the end (Python dicts keep insertion order). -/
def insertEdge (d : List (Nat × List Nat)) (s t : Nat) : List (Nat × List Nat) :=
  match d with
  | [] => [(s, [t])]
  | (k, v) :: rest => if k = s then (k, v ++ [t]) :: rest else (k, v) :: insertEdge rest s t

/-- The `edgedict` of `calculateSystem`: keys are edge starts in first-seen
order, values the lists of edge ends in edge-list order. -/
def buildEdgedict (edgelist : List (Nat × Nat)) : List (Nat × List Nat) :=
  edgelist.foldl (fun d e => insertEdge d e.1 e.2) []

/-- Lookup in the edge dictionary (Python `str(node) in edgedict.keys()` /
`edgedict[startnode]`). -/
def lookupEdge (d : List (Nat × List Nat)) (k : Nat) : Option (List Nat) :=
  match d with
  | [] => none
  | (k', v) :: rest => if k' = k then some v else lookupEdge rest k

/-- Failure modes of the two `calculateSystem` implementations.
`indexError` is Python's `IndexError` (out-of-range list index),
`keyError` is Python's `KeyError` (missing dict key).  `emptyGraph` is the
dedicated input error named by the spec; no code in the repository raises
it, the constructor exists only so the spec's statement can be expressed. -/
inductive CalcErr where
  | indexError
  | keyError
  | emptyGraph
deriving DecidableEq, Repr

/-- Python `recurlist[i]`: `IndexError` when the index is out of range. -/
def nthErr (l : List Nat) (i : Nat) : Except CalcErr Nat :=
  if h : i < l.length then .ok l[i] else .error .indexError

/-- The right-hand side `sympycfg2.py` builds for one node (lines 45-54):
starting from `Integer(0)`, for each outgoing edge add `symbol(t)*x` when
the target `t` has outgoing edges and `x` otherwise, and then — still
inside the per-edge loop — multiply the accumulated expression by
`(symbol(entry)*x)^k`. -/
def nodeExpr (edgedict : List (Nat × List Nat)) (recurexpr : Expr) (k : Nat)
    (endnodes : List Nat) : Expr :=
  endnodes.foldl
    (fun expr node =>
      let expr :=
        if (lookupEdge edgedict node).isSome then Expr.add expr (Expr.mul (Expr.sym node) Expr.X)
        else Expr.add expr Expr.X
      Expr.mul (Expr.pow recurexpr k) expr)
    (Expr.intC 0)

/-- Modelled from the spec (§4.1): the sum over outgoing edges multiplied
exactly once, as a whole, by `(symbol(entry)*x)^k`.  Stated for the
refinement comparison with `nodeExpr`, which is what `sympycfg2.py`
actually computes. -/
def specNodeRHS (edgedict : List (Nat × List Nat)) (recurexpr : Expr) (k : Nat)
    (endnodes : List Nat) : Expr :=
  Expr.mul (Expr.pow recurexpr k)
    (endnodes.foldl
      (fun expr node =>
        if (lookupEdge edgedict node).isSome then Expr.add expr (Expr.mul (Expr.sym node) Expr.X)
        else Expr.add expr Expr.X)
      (Expr.intC 0))

/-- The per-node loop of `sympycfg2.calculateSystem` (lines 43-55): one
equation `expr - sym` per `edgedict` key, in key order.  The recursion
multiplicity is read by `recurlist[int(startnode)]`, an `IndexError` when
out of range (the end-node list of a key is never empty, so the Python
indexing inside the loop runs exactly when the key is processed). -/
def buildSystem (edgedict : List (Nat × List Nat)) (recurexpr : Expr)
    (recurlist : List Nat) : List (Nat × List Nat) → Except CalcErr (List Expr)
  | [] => .ok []
  | (startnode, endnodes) :: rest =>
    match nthErr recurlist startnode with
    | .error e => .error e
    | .ok k =>
      match buildSystem edgedict recurexpr recurlist rest with
      | .error e => .error e
      | .ok sys => .ok (Expr.sub (nodeExpr edgedict recurexpr k endnodes) (Expr.sym startnode) :: sys)

/-- `sympycfg2.calculateSystem` (lines 27-58) up to the `nonlinsolve` call:
the system of equations handed to the solver.  On an empty edge list the
Python code evaluates `edgelist[0][0]` and raises `IndexError`. -/
def calculateSystem (edgelist : List (Nat × Nat)) (recurlist : List Nat) :
    Except CalcErr (List Expr) :=
  match edgelist with
  | [] => .error .indexError
  | e :: _ =>
    let edgedict := buildEdgedict edgelist
    let recurexpr := Expr.mul (Expr.sym e.1) Expr.X
    buildSystem edgedict recurexpr recurlist edgedict

/-- The solution predicate for the system handed to `nonlinsolve`: the
external solver is modelled by its defining property, an assignment of the
node symbols satisfying every equation of the system. -/
def solvesSystem (sys : List Expr) (σ : Nat → Int) (x : Int) : Prop :=
  ∀ e ∈ sys, e.eval σ x = 0

/-! ## The string-based builder (`CFG2CFG.py`) -/

/-- The non-recursive equation string `CFG2CFG.calculateSystem` builds for
one node (lines 37-45): `" + Bx"` or `" + x"` per outgoing edge, with the
first three characters dropped at the end (`eq[3:]`). -/
def ccNodeEq (edgedict : List (Nat × List Nat)) (endnodes : List Nat) : List Char :=
  (endnodes.foldl
    (fun eq node =>
      if (lookupEdge edgedict node).isSome then
        eq ++ [' ', '+', ' ', Char.ofNat (node + 65), 'x']
      else eq ++ [' ', '+', ' ', 'x'])
    []).drop 3

/-- Python `system[recurnode] = f(system[recurnode])` on a dict: `KeyError`
when the key is absent, otherwise in-place update keeping the position. -/
def ccUpdate (system : List (Char × List Char)) (key : Char) (f : List Char → List Char) :
    Except CalcErr (List (Char × List Char)) :=
  match system with
  | [] => .error .keyError
  | (k, v) :: rest =>
    if k = key then .ok ((k, f v) :: rest)
    else (ccUpdate rest key f).map (fun s => (k, v) :: s)

/-- The recursion pass of `CFG2CFG.calculateSystem` (lines 47-54): for each
index `i` with `recurlist[i] > 0`, wrap the node's whole equation once in
`firstnode + "x(" + eq + ")"` (multiplicity 1) or
`firstnode + "^(" + pow + ")x^(" + pow + ")(" + eq + ")"`. -/
def ccApplyRec (firstnode : Char) : List (Nat × Nat) → List (Char × List Char) →
    Except CalcErr (List (Char × List Char))
  | [], system => .ok system
  | (i, r) :: rest, system =>
    if r > 0 then
      match ccUpdate system (Char.ofNat (i + 65)) (fun old =>
        if r = 1 then firstnode :: 'x' :: '(' :: (old ++ [')'])
        else firstnode :: '^' :: '(' :: ((Nat.repr r).toList ++ [')', 'x', '^', '('] ++
              (Nat.repr r).toList ++ [')', '('] ++ old ++ [')'])) with
      | .error e => .error e
      | .ok system2 => ccApplyRec firstnode rest system2
    else ccApplyRec firstnode rest system

/-- `CFG2CFG.calculateSystem` (lines 25-55): the equation-string dictionary
in key insertion order.  As in `sympycfg2.py`, an empty edge list raises
`IndexError` at `edgelist[0][0]`. -/
def calculateSystemCC (edgelist : List (Nat × Nat)) (recurlist : List Nat) :
    Except CalcErr (List (Char × String)) :=
  let edgedict := buildEdgedict edgelist
  let system := edgedict.map (fun p => (Char.ofNat (p.1 + 65), ccNodeEq edgedict p.2))
  match edgelist with
  | [] => .error .indexError
  | e :: _ =>
    (ccApplyRec (Char.ofNat (e.1 + 65)) recurlist.enum system).map
      (List.map (fun p => (p.1, String.mk p.2)))

/-! ## Scheduler / worker pool (`command.py`)

`do_metrics_multithreaded` (lines 639-690) sorts the graphs by descending
vertex count, queues `(cfg, generator_name)` pairs — generators iterated in
reverse, and only graphs whose name occurs in the CSV `methodList` — into a
FIFO queue, and runs `multiprocess_metrics` workers over it.
`multiprocess_metrics` (lines 99-133) pops one task at a time under the
queue lock and writes at most one entry per task into the shared dict,
keyed by `(graph.name, metrics_generator.name())`.  Because each task
writes only its own key, the final contents of the shared dict do not
depend on how the pool interleaves the tasks; we model the run as a left
fold over the queued task list (exact for pool size 1, and contents-
equivalent for any pool size). -/

inductive Lang where
  | python
  | cpp
  | java
deriving DecidableEq, Repr

/-- The graph data the scheduler reads: `cfg.name`,
`len(cfg.graph.vertices())` and `graph.metadata.language`. -/
structure Graph where
  name : String
  size : Nat
  language : Lang
deriving DecidableEq, Repr

/-- A queued task `(cfg, metrics_generator.name())`. -/
abbrev Task := Graph × String

/-- A shared-dict key `(graph.name, metrics_generator.name())`. -/
abbrev Key := String × String

/-- What one `evaluate` call does, abstracting the metric computation:
return a value, exceed the task timeout (`TimeoutError`), or raise
`IndexError`. -/
inductive Outcome where
  | ok (v : Nat)
  | timeout
  | indexError
deriving DecidableEq, Repr

/-- A shared-dict value: a metric result or the `("NA", "Timeout")`
sentinel tuple. -/
inductive Val where
  | res (v : Nat)
  | sentinel (a b : String)
deriving DecidableEq, Repr

abbrev Dict := List (Key × Val)

def taskKey (t : Task) : Key := (t.1.name, t.2)

/-- The guard at `command.py` lines 116-118: a "Lines of Code" task on a
non-Python graph is skipped with `continue` (nothing is written). -/
def locSkip (t : Task) : Bool :=
  decide (t.2 = "Lines of Code") && decide (t.1.language ≠ Lang.python)

/-- Lookup in the shared dict. -/
def dictLookup (d : Dict) (k : Key) : Option Val :=
  match d with
  | [] => none
  | (k', v) :: rest => if k' = k then some v else dictLookup rest k

/-- Python dict assignment `shared_dict[key] = value`: overwrite in place
when the key exists, append otherwise. -/
def dictWrite (d : Dict) (k : Key) (v : Val) : Dict :=
  match d with
  | [] => [(k, v)]
  | (k', v') :: rest => if k' = k then (k', v) :: rest else (k', v') :: dictWrite rest k v

def dictKeys (d : Dict) : List Key := d.map Prod.fst

/-- One loop iteration of `multiprocess_metrics` (lines 107-132) for the
task it popped: skip LOC/non-Python, write the result on success, write
the `("NA", "Timeout")` sentinel on `TimeoutError`, and on `IndexError`
only print — nothing is written for that key. -/
def processTask (b : Task → Outcome) (d : Dict) (t : Task) : Dict :=
  if locSkip t then d
  else
    match b t with
    | .ok v => dictWrite d (taskKey t) (.res v)
    | .timeout => dictWrite d (taskKey t) (Val.sentinel ("NA") ("Timeout"))
    | .indexError => d

/-- The entry a task contributes to the shared dict, if any. -/
def expectedVal (b : Task → Outcome) (t : Task) : Option Val :=
  if locSkip t then none
  else
    match b t with
    | .ok v => some (.res v)
    | .timeout => some (Val.sentinel ("NA") ("Timeout"))
    | .indexError => none

/-- The shared dict after the pool has drained the queue (see the section
comment: a left fold over the FIFO queue order). -/
def runQueue (Q : List Task) (b : Task → Outcome) : Dict :=
  Q.foldl (processTask b) []

/-- Stable descending insertion by vertex count: the element goes after
every earlier element of greater-or-equal size, matching Python's stable
`sorted(..., key=lambda cfg: len(cfg.graph.vertices()), reverse=True)`
at line 655. -/
def insertDesc (g : Graph) : List Graph → List Graph
  | [] => [g]
  | h :: t => if h.size < g.size then g :: h :: t else h :: insertDesc g t

/-- `sorted(cfgs, key=..., reverse=True)`: as a stable descending sort by
size it produces the same list as inserting the graphs left to right. -/
def sortCfgs (cfgs : List Graph) : List Graph :=
  cfgs.foldl (fun acc c => insertDesc c acc) []

/-- The queue built at `command.py` lines 655-664: for each generator of
the reversed generator list, every sorted graph whose name is in the CSV
`methodList`, in that order. -/
def buildQueue (cfgs : List Graph) (gens ml : List String) : List Task :=
  gens.reverse.flatMap (fun gen =>
    ((sortCfgs cfgs).filter (fun c => decide (c.name ∈ ml))).map (fun c => (c, gen)))

/-! ## Weak compositions (`recursion.py`) -/

/-- `recursion.recurlists` (lines 22-33): for `numloops = 1` the single
list `[[points]]`, otherwise every `i` in `range(points + 1)` prepended to
the lists for `numloops - 1` and `points - i`.  The source always calls it
with `numloops ≥ 1`; on `numloops = 0` the Python recursion never
terminates, so the embedding returns `[]` there (no claim touches it). -/
def recurlists : Nat → Nat → List (List Nat)
  | 0, _ => []
  | 1, points => [[points]]
  | n + 2, points =>
    (List.range (points + 1)).flatMap
      (fun i => (recurlists (n + 1) (points - i)).map (fun entry => i :: entry))

/-! ## Grammar language enumeration (`recursion2.py`) -/

/-- The grammar dictionary of `recursion2.py`: characters mapped to
`"|"`-separated alternative strings. -/
abbrev RuleDict := List (Char × String)

/-- Python `dict[c]` / `c in dict` on the grammar dictionary. -/
def dictFind (d : RuleDict) (c : Char) : Option String :=
  match d with
  | [] => none
  | (k, v) :: rest => if k = c then some v else dictFind rest c

def charInDict (d : RuleDict) (c : Char) : Bool := (dictFind d c).isSome

/-- Python `str.split(sep)` for a one-character separator. -/
def splitChar (sep : Char) : List Char → List (List Char)
  | [] => [[]]
  | c :: cs =>
    if c = sep then [] :: splitChar sep cs
    else
      match splitChar sep cs with
      | [] => [[c]]
      | h :: t => (c :: h) :: t

/-- `dict[char].split("|")` at `recursion2.py` line 28. -/
def splitOptions (s : String) : List String :=
  (splitChar '|' s.toList).map (fun l => String.mk l)

/-- The character loop of `getNextStrings` (`recursion2.py` lines 24-39):
for a grammar character, append each alternative to every accumulated
string (alternatives in the outer loop, matching the Python order); for a
plain character, push it onto every accumulated string. -/
def goNext (d : RuleDict) : List Char → List String → List String
  | [], acc => acc
  | c :: cs, acc =>
    match dictFind d c with
    | some rhs => goNext d cs ((splitOptions rhs).flatMap (fun opt => acc.map (fun s => s ++ opt)))
    | none => goNext d cs (acc.map (fun s => s.push c))

def getNextStrings (d : RuleDict) (current : String) : List String :=
  goNext d current.toList [""]

/-- The `returnlist += getLang(num, dict, str)` loop of `getLang` (lines
17-19), parametrised by the recursive call. -/
def goLang (f : String → Option (List String)) : List String → Option (List String)
  | [] => some []
  | s :: rest => do
    let r ← f s
    let l ← goLang f rest
    pure (r ++ l)

/-- `recursion2.getLang` (lines 8-22).  The Python recursion can diverge
(derived strings need not shrink), so the embedding takes a fuel argument
and returns `none` when the fuel runs out; `some` results are exactly the
values terminating Python runs return. -/
def getLang (num : Nat) (d : RuleDict) : Nat → String → Option (List String)
  | 0, _ => none
  | fuel + 1, current =>
    if current.toList.all (fun c => !charInDict d c) then some [current]
    else if current.length ≤ num then goLang (getLang num d fuel) (getNextStrings d current)
    else some []

/-- `recursion2.recursion` (lines 1-6): count the strings of the language
by length into `[0] * (num + 1)`; the write `returnlist[len(str)] += 1`
raises `IndexError` (modelled as `none`) when a string is longer than
`num`. -/
def recursion (num : Nat) (d : RuleDict) (start : String) (fuel : Nat) : Option (List Nat) := do
  let inLanguage ← getLang num d fuel start
  inLanguage.foldlM
    (fun rl s =>
      if s.length < rl.length then some (rl.set s.length (rl.getD s.length 0 + 1)) else none)
    (List.replicate (num + 1) 0)

/-- The lengths of all production alternatives of the grammar. -/
def optionLens (d : RuleDict) : List Nat :=
  d.flatMap (fun p => (splitOptions p.2).map String.length)

/-- An upper bound (at least 1) on how much one character can grow in one
`getNextStrings` step. -/
def expansionBound (d : RuleDict) : Nat := (optionLens d).foldl max 1

/-! ## APC feature vectors (`command.py`, `do_vector`, lines 742-814) -/

/-- The value of Python `float(...)` on a plain decimal literal, kept
unnormalised as `mant / 10 ^ scale`. -/
structure Dec where
  mant : Nat
  scale : Nat
deriving DecidableEq, Repr

def digitVal (c : Char) : Option Nat :=
  if c.isDigit then some (c.toNat - 48) else none

def parseDigits (l : List Char) : Option Nat :=
  match l with
  | [] => none
  | _ => l.foldlM (fun acc c => (digitVal c).map (fun dv => acc * 10 + dv)) 0

/-- Modelled from Python's builtin `float()` on the decimal literals
(`"4"`, `"2.0"`, ...) this code path feeds it; `none` is a `ValueError`. -/
def parseFloat (s : String) : Option Dec :=
  match splitChar '.' s.toList with
  | [w] => (parseDigits w).map (fun n => Dec.mk n 0)
  | [w, fr] =>
    match parseDigits w, parseDigits fr with
    | some a, some b => some (Dec.mk (a * 10 ^ fr.length + b) fr.length)
    | _, _ => none
  | _ => none

/-- Python `str.split("*")`. -/
def splitStar (s : String) : List String := (splitChar '*' s.toList).map (fun l => String.mk l)

/-- Python `str.split()` (whitespace split, empty pieces dropped). -/
def splitWs (s : String) : List String :=
  ((splitChar ' ' s.toList).filter (fun l => decide (l ≠ []))).map (fun l => String.mk l)

/-- `pc.replace(" ", "*")` for the one-character arguments used here. -/
def replaceSpace (s : String) : String :=
  String.mk (s.toList.map (fun c => if c = ' ' then '*' else c))

/-- The `count` of `'*'` characters in an entry (lines 764-767). -/
def countStar (s : String) : Nat := s.toList.count '*'

/-- One cell of the Python feature-vector list, which mixes ints, floats
and strings (the polynomial/exponential `coeff` is never converted). -/
inductive Cell where
  | i (n : Int)
  | f (d : Dec)
  | s (t : String)
deriving DecidableEq, Repr

/-- Result of the per-method feature-vector computation of `do_vector`:
the list stored into `metricDict`, the bare string the `else` branch
assigns via the walrus operator, or an uncaught Python exception
(`ValueError` from `float`, `NameError` from an unassigned `coeff`). -/
inductive VecResult where
  | vec (cells : List Cell)
  | msg (t : String)
  | exn
deriving DecidableEq, Repr

/-- The linear branch's scan over `pc.split()` (lines 763-769): the last
entry with exactly one `*` wins and produces `[1, 0, 0, 0,
float(entry.split("*")[0])]`; if no entry matches, `apclist` stays the
one-element split list `["n"]`. -/
def linLoop : List String → Option (List Cell) → VecResult
  | [], none => .vec [Cell.s ("n")]
  | [], some cells => .vec cells
  | e :: rest, cur =>
    if countStar e = 1 then
      match parseFloat ((splitStar e).headD ("")) with
      | some q => linLoop rest (some [Cell.i 1, Cell.i 0, Cell.i 0, Cell.i 0, Cell.f q])
      | none => .exn
    else linLoop rest cur

/-- The `coeff` scan of the polynomial/exponential branch (lines 776-779):
the last window of `pcSplit` equal to the 3-piece `apclist` sets `coeff`
to `pcSplit[i - 1]`, Python's `-1` indexing the last element when `i = 0`;
`none` means `coeff` was never assigned (a `NameError` at its use). -/
def coeffScan (pcSplit apcl : List String) : Option String :=
  (List.range (pcSplit.length - 2)).foldl
    (fun acc i =>
      if (pcSplit.drop i).take 3 = apcl then
        some (if i = 0 then (pcSplit.getLast?).getD ("") else pcSplit.getD (i - 1) (""))
      else acc)
    none

/-- The APC feature-vector computation of `do_vector` (lines 759-788) on
the printed APC expression and path-complexity string. -/
def apcFeature (apc pc : String) : VecResult :=
  let apclist := splitStar apc
  if apclist.length = 1 then
    if apclist.headD ("") = "n" then linLoop (splitWs pc) none
    else
      match parseFloat (apclist.headD ("")) with
      | some v => .vec [Cell.i 0, Cell.i 0, Cell.i 0, Cell.f v, Cell.i 0]
      | none => .vec [Cell.i (-1), Cell.i (-1), Cell.i (-1), Cell.i (-1), Cell.i (-1),
          Cell.s ("took too long to run")]
  else if apclist.length = 3 then
    let pcSplit := splitStar (replaceSpace pc)
    match coeffScan pcSplit apclist with
    | none => .exn
    | some coeff =>
      if apclist.headD ("") = "n" then
        match parseFloat (apclist.getD 2 ("")) with
        | some power => .vec [Cell.i 2, Cell.i 0, Cell.i 0, Cell.s coeff, Cell.f power]
        | none => .exn
      else
        match parseFloat (apclist.headD ("")) with
        | some base => .vec [Cell.i 3, Cell.s coeff, Cell.f base, Cell.i 0, Cell.i 0]
        | none => .exn
  else .msg ("Split APC is not of an expected length")

/-! ## Helper lemmas: the shared dict -/

theorem dictLookup_write_self (d : Dict) (k : Key) (v : Val) :
    dictLookup (dictWrite d k v) k = some v := by
  induction d with
  | nil => simp [dictWrite, dictLookup]
  | cons p rest ih =>
    obtain ⟨k', v'⟩ := p
    by_cases h : k' = k <;> simp [dictWrite, dictLookup, h, ih]

theorem dictLookup_write_ne (d : Dict) {k k' : Key} (v : Val) (h : k' ≠ k) :
    dictLookup (dictWrite d k v) k' = dictLookup d k' := by
  have hkk : ¬(k = k') := fun hh => h hh.symm
  induction d with
  | nil => simp [dictWrite, dictLookup, hkk]
  | cons p rest ih =>
    obtain ⟨k'', v''⟩ := p
    by_cases h2 : k'' = k
    · simp [dictWrite, h2, dictLookup, hkk]
    · simp [dictWrite, h2, dictLookup, ih]

theorem dictKeys_write (d : Dict) (k : Key) (v : Val) :
    dictKeys (dictWrite d k v) = if k ∈ dictKeys d then dictKeys d else dictKeys d ++ [k] := by
  induction d with
  | nil => simp [dictWrite, dictKeys]
  | cons p rest ih =>
    obtain ⟨k', v'⟩ := p
    by_cases h : k' = k
    · subst h; simp [dictWrite, dictKeys]
    · have hkk : ¬(k = k') := fun hh => h hh.symm
      simp only [dictWrite, if_neg h, dictKeys, List.map_cons, List.mem_cons, hkk, false_or]
      by_cases hm : k ∈ List.map Prod.fst rest
      · rw [if_pos hm]
        have := ih
        simp only [dictKeys] at this
        rw [this, if_pos hm]
      · rw [if_neg hm]
        have := ih
        simp only [dictKeys] at this
        rw [this, if_neg hm]
        simp

theorem dictKeys_write_nodup {d : Dict} (h : (dictKeys d).Nodup) (k : Key) (v : Val) :
    (dictKeys (dictWrite d k v)).Nodup := by
  rw [dictKeys_write]
  split
  · exact h
  · next hk => simp [List.nodup_append, h, hk]

theorem dictLookup_ne_none_iff (d : Dict) (k : Key) :
    dictLookup d k ≠ none ↔ k ∈ dictKeys d := by
  induction d with
  | nil => simp [dictLookup, dictKeys]
  | cons p rest ih =>
    obtain ⟨k', v'⟩ := p
    by_cases h : k' = k
    · subst h
      simp only [dictLookup, if_pos rfl, dictKeys, List.map_cons, List.mem_cons]
      simp
    · have hkk : ¬(k = k') := fun hh => h hh.symm
      simp only [dictLookup, if_neg h, dictKeys, List.map_cons, List.mem_cons] at ih ⊢
      simp [hkk, ih]

/-! ## Helper lemmas: the worker fold -/

theorem processTask_lookup_ne (b : Task → Outcome) (d : Dict) (t : Task) {k : Key}
    (h : k ≠ taskKey t) : dictLookup (processTask b d t) k = dictLookup d k := by
  unfold processTask
  split
  · rfl
  · cases b t <;> simp [dictLookup_write_ne _ _ h]

theorem processTask_lookup_self (b : Task → Outcome) (d : Dict) (t : Task)
    (h : dictLookup d (taskKey t) = none) :
    dictLookup (processTask b d t) (taskKey t) = expectedVal b t := by
  unfold processTask expectedVal
  split
  · exact h
  · cases b t <;> simp [dictLookup_write_self, h]

theorem foldl_lookup_not_mem (b : Task → Outcome) (Q : List Task) :
    ∀ (d : Dict) (k : Key), k ∉ Q.map taskKey →
      dictLookup (Q.foldl (processTask b) d) k = dictLookup d k := by
  induction Q with
  | nil => intro d k _; rfl
  | cons t Q ih =>
    intro d k hk
    simp only [List.map_cons, List.mem_cons] at hk
    push_neg at hk
    rw [List.foldl_cons, ih _ _ hk.2, processTask_lookup_ne _ _ _ hk.1]

theorem foldl_lookup_main (b : Task → Outcome) (Q : List Task) :
    ∀ (d : Dict) (t : Task), (Q.map taskKey).Nodup → t ∈ Q →
      dictLookup d (taskKey t) = none →
      dictLookup (Q.foldl (processTask b) d) (taskKey t) = expectedVal b t := by
  induction Q with
  | nil => intro d t _ ht; exact absurd ht (List.not_mem_nil t)
  | cons t' Q ih =>
    intro d t hnd ht hd
    simp only [List.map_cons, List.nodup_cons] at hnd
    rcases List.mem_cons.mp ht with rfl | htQ
    · rw [List.foldl_cons, foldl_lookup_not_mem _ _ _ _ hnd.1,
        processTask_lookup_self _ _ _ hd]
    · have hne : taskKey t ≠ taskKey t' := by
        rintro he
        exact hnd.1 (he ▸ List.mem_map_of_mem taskKey htQ)
      rw [List.foldl_cons]
      exact ih _ _ hnd.2 htQ (by rw [processTask_lookup_ne _ _ _ hne]; exact hd)

theorem lookup_runQueue (b : Task → Outcome) {Q : List Task} {t : Task}
    (hnd : (Q.map taskKey).Nodup) (ht : t ∈ Q) :
    dictLookup (runQueue Q b) (taskKey t) = expectedVal b t :=
  foldl_lookup_main b Q [] t hnd ht rfl

theorem keys_foldl_nodup (b : Task → Outcome) (Q : List Task) :
    ∀ d : Dict, (dictKeys d).Nodup → (dictKeys (Q.foldl (processTask b) d)).Nodup := by
  induction Q with
  | nil => intro d h; exact h
  | cons t Q ih =>
    intro d h
    rw [List.foldl_cons]
    refine ih _ ?_
    unfold processTask
    split
    · exact h
    · cases b t <;> first | exact h | exact dictKeys_write_nodup h _ _

theorem keys_foldl_subset (b : Task → Outcome) (Q : List Task) :
    ∀ (d : Dict) (k : Key), k ∈ dictKeys (Q.foldl (processTask b) d) →
      k ∈ dictKeys d ∨ k ∈ Q.map taskKey := by
  induction Q with
  | nil => intro d k h; exact Or.inl h
  | cons t Q ih =>
    intro d k h
    rcases ih _ _ h with h2 | h2
    · unfold processTask at h2
      split at h2
      · exact Or.inl h2
      · have hw : ∀ v, k ∈ dictKeys (dictWrite d (taskKey t) v) →
            k ∈ dictKeys d ∨ k = taskKey t := by
          intro v hv
          rw [dictKeys_write] at hv
          split at hv
          · exact Or.inl hv
          · rcases List.mem_append.mp hv with h3 | h3
            · exact Or.inl h3
            · exact Or.inr (List.mem_singleton.mp h3)
        cases hb : b t <;> rw [hb] at h2
        · rcases hw _ h2 with h3 | h3
          · exact Or.inl h3
          · exact Or.inr (by simp [h3])
        · rcases hw _ h2 with h3 | h3
          · exact Or.inl h3
          · exact Or.inr (by simp [h3])
        · exact Or.inl h2
    · exact Or.inr (by simp [h2])

/-! ## Helper lemmas: the descending sort and the queue -/

theorem mem_insertDesc {x g : Graph} : ∀ l : List Graph, x ∈ insertDesc g l ↔ x = g ∨ x ∈ l := by
  intro l
  induction l with
  | nil => simp [insertDesc]
  | cons h t ih =>
    by_cases hc : h.size < g.size
    · simp [insertDesc, hc]
    · simp [insertDesc, hc, ih]
      tauto

theorem pairwise_insertDesc {g : Graph} {l : List Graph}
    (h : l.Pairwise (fun a b => b.size ≤ a.size)) :
    (insertDesc g l).Pairwise (fun a b => b.size ≤ a.size) := by
  induction l with
  | nil => simp [insertDesc]
  | cons hd t ih =>
    rw [List.pairwise_cons] at h
    by_cases hc : hd.size < g.size
    · simp only [insertDesc, if_pos hc]
      refine List.pairwise_cons.mpr ⟨?_, List.pairwise_cons.mpr h⟩
      intro y hy
      rcases List.mem_cons.mp hy with rfl | hyt
      · exact le_of_lt hc
      · exact le_trans (h.1 y hyt) (le_of_lt hc)
    · simp only [insertDesc, if_neg hc]
      refine List.pairwise_cons.mpr ⟨?_, ih h.2⟩
      intro y hy
      rcases (mem_insertDesc t).mp hy with rfl | hyt
      · exact Nat.le_of_not_lt hc
      · exact h.1 y hyt

theorem sortCfgs_pairwise (cfgs : List Graph) :
    (sortCfgs cfgs).Pairwise (fun a b => b.size ≤ a.size) := by
  suffices h : ∀ acc : List Graph, acc.Pairwise (fun a b => b.size ≤ a.size) →
      (cfgs.foldl (fun acc c => insertDesc c acc) acc).Pairwise (fun a b => b.size ≤ a.size) from
    h [] List.Pairwise.nil
  induction cfgs with
  | nil => intro acc h; exact h
  | cons c rest ih => intro acc h; exact ih _ (pairwise_insertDesc h)

theorem mem_sortCfgs {x : Graph} {cfgs : List Graph} : x ∈ sortCfgs cfgs ↔ x ∈ cfgs := by
  suffices h : ∀ acc : List Graph,
      (x ∈ cfgs.foldl (fun acc c => insertDesc c acc) acc ↔ x ∈ acc ∨ x ∈ cfgs) by
    simpa [sortCfgs] using h []
  induction cfgs with
  | nil => intro acc; simp
  | cons c rest ih =>
    intro acc
    rw [List.foldl_cons, ih]
    simp [mem_insertDesc]
    tauto

theorem mem_buildQueue {cfgs : List Graph} {gens ml : List String} {g : Graph} {gen : String} :
    (g, gen) ∈ buildQueue cfgs gens ml ↔ g ∈ cfgs ∧ gen ∈ gens ∧ g.name ∈ ml := by
  simp only [buildQueue, List.mem_flatMap, List.mem_map, List.mem_filter, List.mem_reverse,
    mem_sortCfgs, Prod.mk.injEq, decide_eq_true_eq]
  constructor
  · rintro ⟨gen', hgen', c, ⟨⟨hc, hcml⟩, rfl, rfl⟩⟩
    exact ⟨hc, hgen', hcml⟩
  · rintro ⟨hg, hgen, hml⟩
    exact ⟨gen, hgen, g, ⟨⟨hg, hml⟩, rfl, rfl⟩⟩

theorem flatMap_single_block {α β : Type} [DecidableEq α] (L : List α) (g : α) (B : List β)
    (hL : L.Nodup) :
    (L.flatMap fun x => if x = g then B else []) = if g ∈ L then B else [] := by
  induction L with
  | nil => simp
  | cons a L ih =>
    rw [List.flatMap_cons]
    rcases List.nodup_cons.mp hL with ⟨ha, hL2⟩
    by_cases hag : a = g
    · subst hag
      have hz : (L.flatMap fun x => if x = a then B else []) = [] := by
        rw [List.flatMap_eq_nil_iff]
        intro x hx
        apply if_neg
        intro he
        cases he
        exact ha hx
      simp [hz]
    · simp only [if_neg hag, List.nil_append, ih hL2, List.mem_cons]
      have hga : ¬(g = a) := fun h => hag h.symm
      by_cases hg : g ∈ L
      · simp [hg]
      · simp [hg, hga]

/-! ## Helper lemmas: weak compositions -/

theorem recurlists_aux (n : Nat) : ∀ p : Nat,
    (recurlists (n + 1) p).Nodup ∧
      ∀ l : List Nat, l ∈ recurlists (n + 1) p ↔ l.length = n + 1 ∧ l.sum = p := by
  induction n with
  | zero =>
    intro p
    refine ⟨by simp [recurlists], ?_⟩
    intro l
    constructor
    · intro hl
      simp [recurlists] at hl
      subst hl
      simp
    · rintro ⟨hlen, hsum⟩
      cases l with
      | nil => simp at hlen
      | cons a t =>
        cases t with
        | nil =>
          simp at hsum
          simp [recurlists, hsum]
        | cons b t2 => simp at hlen
  | succ n ih =>
    intro p
    have hmem : ∀ l : List Nat, l ∈ recurlists (n + 2) p ↔ l.length = n + 2 ∧ l.sum = p := by
      intro l
      constructor
      · intro hl
        simp only [recurlists, List.mem_flatMap, List.mem_map, List.mem_range] at hl
        obtain ⟨i, hi, e, he, rfl⟩ := hl
        have h2 := ((ih (p - i)).2 e).mp he
        refine ⟨by simp [h2.1], ?_⟩
        simp only [List.sum_cons, h2.2]
        omega
      · rintro ⟨hlen, hsum⟩
        cases l with
        | nil => simp at hlen
        | cons a t =>
          simp only [recurlists, List.mem_flatMap, List.mem_map, List.mem_range]
          have hat : a ≤ p := by
            simp only [List.sum_cons] at hsum
            omega
          refine ⟨a, by omega, t, ?_, rfl⟩
          apply ((ih (p - a)).2 t).mpr
          refine ⟨by simpa using hlen, ?_⟩
          simp only [List.sum_cons] at hsum
          omega
    refine ⟨?_, hmem⟩
    simp only [recurlists]
    rw [List.nodup_flatMap]
    constructor
    · intro i hi
      exact ((ih (p - i)).1).map (fun a b h => by injection h)
    · refine List.Pairwise.imp ?_ (List.nodup_range (p + 1))
      intro i j hij l hl1 hl2
      simp only [List.mem_map] at hl1 hl2
      obtain ⟨e1, _, rfl⟩ := hl1
      obtain ⟨e2, _, he⟩ := hl2
      injection he with h1 h2
      exact hij h1.symm

/-! ## Helper lemmas: grammar expansion bounds -/

theorem foldl_max_init (l : List Nat) : ∀ b : Nat, b ≤ l.foldl max b := by
  induction l with
  | nil => intro b; exact le_refl b
  | cons c l ih => intro b; exact le_trans (le_max_left b c) (ih (max b c))

theorem mem_le_foldl_max {a : Nat} (l : List Nat) : ∀ b : Nat, a ∈ l → a ≤ l.foldl max b := by
  induction l with
  | nil => intro b h; exact absurd h (List.not_mem_nil a)
  | cons c l ih =>
    intro b h
    rcases List.mem_cons.mp h with rfl | h2
    · exact le_trans (le_max_right b a) (foldl_max_init l (max b a))
    · exact ih (max b c) h2

theorem one_le_expansionBound (d : RuleDict) : 1 ≤ expansionBound d :=
  foldl_max_init _ 1

theorem dictFind_mem {d : RuleDict} {c : Char} {rhs : String} (h : dictFind d c = some rhs) :
    (c, rhs) ∈ d := by
  induction d with
  | nil => simp [dictFind] at h
  | cons p rest ih =>
    obtain ⟨k, v⟩ := p
    by_cases hk : k = c
    · subst hk
      simp [dictFind] at h
      simp [h]
    · simp only [dictFind, if_neg hk] at h
      exact List.mem_cons_of_mem _ (ih h)

theorem opt_len_le {d : RuleDict} {c : Char} {rhs opt : String}
    (hm : (c, rhs) ∈ d) (ho : opt ∈ splitOptions rhs) :
    opt.length ≤ expansionBound d := by
  apply mem_le_foldl_max
  simp only [optionLens, List.mem_flatMap]
  exact ⟨(c, rhs), hm, List.mem_map_of_mem _ ho⟩

theorem goNext_length_le (d : RuleDict) : ∀ (cs : List Char) (acc : List String) (m : Nat),
    (∀ s ∈ acc, s.length ≤ m) →
    ∀ s ∈ goNext d cs acc, s.length ≤ m + cs.length * expansionBound d := by
  intro cs
  induction cs with
  | nil =>
    intro acc m hm s hs
    simpa [goNext] using hm s hs
  | cons c cs ih =>
    intro acc m hm s hs
    simp only [goNext] at hs
    rw [List.length_cons, Nat.succ_mul]
    cases hfind : dictFind d c with
    | some rhs =>
      rw [hfind] at hs
      have hnew : ∀ t ∈ (splitOptions rhs).flatMap (fun opt => acc.map (fun s => s ++ opt)),
          t.length ≤ m + expansionBound d := by
        intro t ht
        simp only [List.mem_flatMap, List.mem_map] at ht
        obtain ⟨opt, hopt, s0, hs0, rfl⟩ := ht
        rw [String.length_append]
        exact Nat.add_le_add (hm s0 hs0) (opt_len_le (dictFind_mem hfind) hopt)
      have := ih _ _ hnew s hs
      omega
    | none =>
      rw [hfind] at hs
      have hnew : ∀ t ∈ acc.map (fun s => s.push c), t.length ≤ m + expansionBound d := by
        intro t ht
        simp only [List.mem_map] at ht
        obtain ⟨s0, hs0, rfl⟩ := ht
        rw [String.length_push]
        exact Nat.add_le_add (hm s0 hs0) (one_le_expansionBound d)
      have := ih _ _ hnew s hs
      omega

theorem getNextStrings_length_le {d : RuleDict} {cur s' : String}
    (h : s' ∈ getNextStrings d cur) : s'.length ≤ cur.length * expansionBound d := by
  have h2 := goNext_length_le d cur.toList [""] 0
    (by
      intro t ht
      rw [List.mem_singleton] at ht
      subst ht
      exact le_refl 0)
    s' h
  have h3 : cur.toList.length = cur.length := rfl
  rw [Nat.zero_add, h3] at h2
  exact h2

theorem goLang_mem {f : String → Option (List String)} :
    ∀ (L : List String) (res : List String), goLang f L = some res →
      ∀ s ∈ res, ∃ s' ∈ L, ∃ r, f s' = some r ∧ s ∈ r := by
  intro L
  induction L with
  | nil =>
    intro res h s hs
    simp only [goLang, Option.some.injEq] at h
    subst h
    simp at hs
  | cons s0 L ih =>
    intro res h s hs
    simp only [goLang] at h
    cases hf : f s0 with
    | none => rw [hf] at h; simp at h
    | some r =>
      rw [hf] at h
      cases hg : goLang f L with
      | none => rw [hg] at h; simp at h
      | some l =>
        rw [hg] at h
        simp at h
        subst h
        rcases List.mem_append.mp hs with h2 | h2
        · exact ⟨s0, List.mem_cons_self _ _, r, hf, h2⟩
        · obtain ⟨s', hs', rr, hrr, hsr⟩ := ih l hg s h2
          exact ⟨s', List.mem_cons_of_mem _ hs', rr, hrr, hsr⟩

/-! ## Claim theorems -/

/-- Claim C1.  The claim says the recursion factor `(symbol(entry)*x)^k`
multiplies a node's whole right-hand side exactly once and is not applied
per outgoing edge.  In `sympycfg2.calculateSystem` the multiplication sits
inside the per-edge loop: for the graph with edges `[(0,1),(0,2)]` and
recursion multiplicity 1 at node 0, the node-0 right-hand side evaluates
(at `symbol(0) = 2`, `x = 1`) to `6` — it is `A^2*x^3 + A*x^2` — while the
spec's whole-right-hand-side formula gives `2*A*x^2`, which evaluates to
`4`.  The sister implementation `CFG2CFG.calculateSystem` applies the
factor once to the whole equation string, producing `"Ax(x + x)"`, as the
spec describes. -/
theorem C1_recursion_factor_per_edge :
    calculateSystem [(0, 1), (0, 2)] [1, 0, 0] =
      .ok [Expr.sub (nodeExpr (buildEdgedict [(0, 1), (0, 2)]) (Expr.mul (Expr.sym 0) Expr.X) 1
            [1, 2]) (Expr.sym 0)]
    ∧ Expr.eval (fun n => if n = 0 then 2 else 0) 1
        (nodeExpr (buildEdgedict [(0, 1), (0, 2)]) (Expr.mul (Expr.sym 0) Expr.X) 1 [1, 2]) = 6
    ∧ Expr.eval (fun n => if n = 0 then 2 else 0) 1
        (specNodeRHS (buildEdgedict [(0, 1), (0, 2)]) (Expr.mul (Expr.sym 0) Expr.X) 1 [1, 2]) = 4
    ∧ calculateSystemCC [(0, 1), (0, 2)] [1, 0, 0] = .ok [('A', "Ax(x + x)")] :=
  ⟨rfl, rfl, rfl, rfl⟩

/-- Claim C2, counterexample.  One graph and one applicable generator
(cyclomatic complexity applies to every graph — the `locSkip` guard is
off), but the graph's name is not in the CSV method list, so nothing is
queued and the run terminates with an empty result map: the key for the
applicable pair is missing. -/
theorem C2_counterexample :
    locSkip (⟨"g", 3, Lang.cpp⟩, "Cyclomatic Complexity") = false
    ∧ runQueue (buildQueue [⟨"g", 3, Lang.cpp⟩] [("Cyclomatic Complexity")] [])
        (fun _ => .ok 1) = [] :=
  ⟨rfl, rfl⟩

/-- Claim C2, amended.  When the queued tasks have pairwise distinct
`(graph.name, generator.name())` keys, the final shared map has no
duplicate keys, maps the key of every queued task to exactly the entry
its execution writes (`some` value for success, the sentinel for timeout,
and `none` — an omission — for the LOC/non-Python skip and for
`IndexError`), contains no other keys, and a pair is queued exactly when
the graph is an input, the generator is an input, and the graph's name is
in the CSV method list. -/
theorem C2_amended (cfgs : List Graph) (gens ml : List String) (b : Task → Outcome)
    (h : ((buildQueue cfgs gens ml).map taskKey).Nodup) :
    (dictKeys (runQueue (buildQueue cfgs gens ml) b)).Nodup
    ∧ (∀ t ∈ buildQueue cfgs gens ml,
        dictLookup (runQueue (buildQueue cfgs gens ml) b) (taskKey t) = expectedVal b t)
    ∧ (∀ k, dictLookup (runQueue (buildQueue cfgs gens ml) b) k ≠ none →
        k ∈ (buildQueue cfgs gens ml).map taskKey)
    ∧ (∀ (g : Graph) (gen : String), (g, gen) ∈ buildQueue cfgs gens ml ↔
        g ∈ cfgs ∧ gen ∈ gens ∧ g.name ∈ ml) := by
  refine ⟨keys_foldl_nodup b _ [] (by simp [dictKeys]),
    fun t ht => lookup_runQueue b h ht, ?_, fun g gen => mem_buildQueue⟩
  intro k hk
  rcases keys_foldl_subset b _ [] k ((dictLookup_ne_none_iff _ k).mp hk) with h2 | h2
  · simp [dictKeys] at h2
  · exact h2

/-- Claim C2, witness: the amended theorem applied to one queued,
successful task. -/
theorem C2_amended_witness :
    dictLookup (runQueue (buildQueue [⟨"g", 3, Lang.cpp⟩] [("Cyclomatic Complexity")] [("g")])
        (fun _ => .ok 7)) (("g"), ("Cyclomatic Complexity")) =
      expectedVal (fun _ => .ok 7) (⟨"g", 3, Lang.cpp⟩, "Cyclomatic Complexity") :=
  (C2_amended _ _ _ _ (by decide)).2.1 (⟨"g", 3, Lang.cpp⟩, "Cyclomatic Complexity") (by decide)

/-- Claim C3.  A task whose evaluation exceeds its timeout gets the
`("NA", "Timeout")` sentinel under its key, and every other queued task
whose evaluation succeeds still gets its result — the timed-out worker
does not retry and the failure does not affect siblings. -/
theorem C3_timeout_sentinel (Q : List Task) (b : Task → Outcome) (t : Task)
    (hnd : (Q.map taskKey).Nodup) (ht : t ∈ Q) (hb : b t = .timeout) (hs : locSkip t = false) :
    dictLookup (runQueue Q b) (taskKey t) = some (Val.sentinel ("NA") ("Timeout"))
    ∧ ∀ t' ∈ Q, ∀ v, b t' = .ok v → locSkip t' = false →
        dictLookup (runQueue Q b) (taskKey t') = some (.res v) := by
  constructor
  · rw [lookup_runQueue b hnd ht]
    simp [expectedVal, hs, hb]
  · intro t' ht' v hv hs'
    rw [lookup_runQueue b hnd ht']
    simp [expectedVal, hs', hv]

/-- Claim C3, witness: a two-task queue where the first task times out
and the second succeeds. -/
theorem C3_timeout_sentinel_witness :
    dictLookup (runQueue
        [(⟨"g1", 2, Lang.cpp⟩, "Path Complexity"), (⟨"g2", 1, Lang.cpp⟩, "Path Complexity")]
        (fun t => if t.1.name = "g1" then Outcome.timeout else Outcome.ok 5))
      (taskKey (⟨"g1", 2, Lang.cpp⟩, "Path Complexity")) = some (Val.sentinel ("NA") ("Timeout"))
    ∧ dictLookup (runQueue
        [(⟨"g1", 2, Lang.cpp⟩, "Path Complexity"), (⟨"g2", 1, Lang.cpp⟩, "Path Complexity")]
        (fun t => if t.1.name = "g1" then Outcome.timeout else Outcome.ok 5))
      (taskKey (⟨"g2", 1, Lang.cpp⟩, "Path Complexity")) = some (.res 5) :=
  ⟨(C3_timeout_sentinel _ _ _ (by decide) (by decide) (by decide) (by decide)).1,
   (C3_timeout_sentinel _ _ (⟨"g1", 2, Lang.cpp⟩, "Path Complexity")
      (by decide) (by decide) (by decide) (by decide)).2
     (⟨"g2", 1, Lang.cpp⟩, "Path Complexity") (by decide) 5 (by decide) (by decide)⟩

/-- Claim C4.  For the CFG with edges `[(0,1),(1,2)]` and no recursion,
the system `sympycfg2.calculateSystem` hands to the solver determines the
entry symbol uniquely, and the unique value is `x^2`: every assignment
solving the system has `symbol(0) = x^2`, and the displayed assignment
does solve it, so the solver returns exactly one closed form for the
entry node, namely `x^2`. -/
theorem C4_unique_closed_form :
    ∀ sys, calculateSystem [(0, 1), (1, 2)] [0, 0, 0] = .ok sys →
      (∀ σ x, solvesSystem sys σ x → σ 0 = x ^ 2) ∧
      (∀ x : Int, solvesSystem sys (fun n => if n = 0 then x ^ 2 else if n = 1 then x else 0) x) := by
  intro sys h
  have hc : calculateSystem [(0, 1), (1, 2)] [0, 0, 0] = Except.ok
      [Expr.sub (nodeExpr (buildEdgedict [(0, 1), (1, 2)]) (Expr.mul (Expr.sym 0) Expr.X) 0 [1])
        (Expr.sym 0),
       Expr.sub (nodeExpr (buildEdgedict [(0, 1), (1, 2)]) (Expr.mul (Expr.sym 0) Expr.X) 0 [2])
        (Expr.sym 1)] := rfl
  rw [hc] at h
  injection h with h2
  subst h2
  constructor
  · intro σ x hsol
    have h1 := hsol _ (List.mem_cons_self _ _)
    have h2 := hsol _ (List.mem_cons_of_mem _ (List.mem_cons_self _ _))
    simp [Expr.eval, nodeExpr, buildEdgedict, insertEdge, lookupEdge] at h1 h2
    have hs1 : σ 1 = x := by linarith
    have hs0 : σ 0 = σ 1 * x := by linarith
    rw [hs1] at hs0
    rw [hs0]; ring
  · intro x
    simp [solvesSystem, List.forall_mem_cons, Expr.eval, nodeExpr, buildEdgedict, insertEdge,
      lookupEdge]
    ring

/-- Claim C4, witness: the uniqueness direction applied at `x = 2` to the
concrete solving assignment. -/
theorem C4_unique_closed_form_witness :
    (fun n => if n = 0 then (2 : Int) ^ 2 else if n = 1 then 2 else 0) 0 = (2 : Int) ^ 2 := by
  have h := C4_unique_closed_form ((calculateSystem [(0, 1), (1, 2)] [0, 0, 0]).toOption.getD []) rfl
  exact h.1 _ 2 (h.2 2)

/-- Claim C5, counterexample.  A task whose evaluation raises
`IndexError` leaves the shared map untouched: the worker only prints the
graph and the error (`command.py` lines 127-129), so no sentinel is
stored under the task's key, contradicting the claim that recoverable
evaluation errors are converted into sentinel results. -/
theorem C5_counterexample :
    dictLookup (runQueue [(⟨"g", 3, Lang.cpp⟩, "NPath Complexity")] (fun _ => Outcome.indexError))
      (("g"), ("NPath Complexity")) = none :=
  rfl

/-- Claim C5, amended.  A worker that hits `IndexError` on a task writes
nothing for that task's key and proceeds: the key is absent from the
final map, while every other queued task whose evaluation succeeds still
gets its result — the error does not propagate to siblings and does not
abort the scheduler. -/
theorem C5_amended (Q : List Task) (b : Task → Outcome) (t : Task)
    (hnd : (Q.map taskKey).Nodup) (ht : t ∈ Q) (hb : b t = .indexError) :
    dictLookup (runQueue Q b) (taskKey t) = none
    ∧ ∀ t' ∈ Q, ∀ v, b t' = .ok v → locSkip t' = false →
        dictLookup (runQueue Q b) (taskKey t') = some (.res v) := by
  constructor
  · rw [lookup_runQueue b hnd ht]
    unfold expectedVal
    split
    · rfl
    · simp [hb]
  · intro t' ht' v hv hs'
    rw [lookup_runQueue b hnd ht']
    simp [expectedVal, hs', hv]

/-- Claim C5, witness: a two-task queue where the first task raises
`IndexError` and the second succeeds. -/
theorem C5_amended_witness :
    dictLookup (runQueue
        [(⟨"g1", 2, Lang.cpp⟩, "NPath Complexity"), (⟨"g2", 1, Lang.cpp⟩, "NPath Complexity")]
        (fun t => if t.1.name = "g1" then Outcome.indexError else Outcome.ok 9))
      (taskKey (⟨"g1", 2, Lang.cpp⟩, "NPath Complexity")) = none
    ∧ dictLookup (runQueue
        [(⟨"g1", 2, Lang.cpp⟩, "NPath Complexity"), (⟨"g2", 1, Lang.cpp⟩, "NPath Complexity")]
        (fun t => if t.1.name = "g1" then Outcome.indexError else Outcome.ok 9))
      (taskKey (⟨"g2", 1, Lang.cpp⟩, "NPath Complexity")) = some (.res 9) :=
  ⟨(C5_amended _ _ _ (by decide) (by decide) (by decide)).1,
   (C5_amended _ _ (⟨"g1", 2, Lang.cpp⟩, "NPath Complexity")
      (by decide) (by decide) (by decide)).2
     (⟨"g2", 1, Lang.cpp⟩, "NPath Complexity") (by decide) 9 (by decide) (by decide)⟩

/-- Claim C6, counterexample.  On an empty edge list both builders raise
the generic `IndexError` (from evaluating `edgelist[0]`), which is not
the dedicated `EmptyGraph` error the claim names — no code in the
repository defines or raises such an error. -/
theorem C6_counterexample :
    calculateSystem [] [0] = .error CalcErr.indexError
    ∧ calculateSystemCC [] [0] = .error CalcErr.indexError
    ∧ CalcErr.indexError ≠ CalcErr.emptyGraph := by
  refine ⟨rfl, rfl, by decide⟩

/-- Claim C6, amended.  For every recursion list, calling either equation
builder on an empty edge list fails with Python's `IndexError` from the
`edgelist[0]` access, not with a dedicated `EmptyGraph` error. -/
theorem C6_amended (recurlist : List Nat) :
    calculateSystem [] recurlist = .error CalcErr.indexError
    ∧ calculateSystemCC [] recurlist = .error CalcErr.indexError :=
  ⟨rfl, rfl⟩

/-- Claim C7.  For a linear APC (`apclist = ["n"]`), `do_vector` builds
`[1, 0, 0, 0, float(coeff)]` (`command.py` line 769): the linear
coefficient (here `float("2.0")`, i.e. 20/10^1) lands in the fifth field
— the `poly_power` slot of the code's own CSV header — while the
`poly_coeff` slot holds `0`, contradicting the claimed layout, which the
third conjunct shows is a genuinely different vector.  The constant
branch, for comparison, does put its value in `poly_coeff`. -/
theorem C7_linear_vector_misplaced :
    apcFeature ("n") ("2.0*n + 5.0") =
      .vec [Cell.i 1, Cell.i 0, Cell.i 0, Cell.i 0, Cell.f (Dec.mk 20 1)]
    ∧ [Cell.i 1, Cell.i 0, Cell.i 0, Cell.i 0, Cell.f (Dec.mk 20 1)] ≠
      [Cell.i 1, Cell.i 0, Cell.i 0, Cell.f (Dec.mk 20 1), Cell.i 0]
    ∧ apcFeature ("4") ("4") =
      .vec [Cell.i 0, Cell.i 0, Cell.i 0, Cell.f (Dec.mk 4 0), Cell.i 0] :=
  ⟨rfl, by decide, rfl⟩

/-- Claim C8.  With pool size 1 the single worker pops the FIFO queue in
order, so execution order is the queue order: for any fixed generator the
queued tasks carry non-increasing graph sizes (the generators are
pairwise distinct in the code), and the concrete three graphs of sizes
`[5, 50, 1]` are queued — hence executed — in the order `(50, 5, 1)`. -/
theorem C8_descending_execution (cfgs : List Graph) (gens ml : List String) (g : String)
    (hg : gens.Nodup) :
    List.Chain' (fun a b : Task => b.1.size ≤ a.1.size)
      ((buildQueue cfgs gens ml).filter (fun t => decide (t.2 = g)))
    ∧ buildQueue [⟨"a", 5, Lang.cpp⟩, ⟨"b", 50, Lang.cpp⟩, ⟨"c", 1, Lang.cpp⟩]
        [("Path Complexity")] [("a"), ("b"), ("c")] =
      [(⟨"b", 50, Lang.cpp⟩, "Path Complexity"), (⟨"a", 5, Lang.cpp⟩, "Path Complexity"),
       (⟨"c", 1, Lang.cpp⟩, "Path Complexity")] := by
  constructor
  · unfold buildQueue
    rw [List.filter_flatMap]
    have hblock : ∀ gen : String,
        (List.filter (fun t => decide (t.2 = g))
          (((sortCfgs cfgs).filter (fun c => decide (c.name ∈ ml))).map (fun c => (c, gen))))
        = if gen = g
          then ((sortCfgs cfgs).filter (fun c => decide (c.name ∈ ml))).map (fun c => (c, g))
          else [] := by
      intro gen
      rw [List.filter_map]
      by_cases hgen : gen = g
      · subst hgen
        simp [Function.comp_def]
      · simp [Function.comp_def, hgen]
    simp only [hblock]
    rw [flatMap_single_block _ _ _ (List.nodup_reverse.mpr hg)]
    split
    · apply List.Pairwise.chain'
      rw [List.pairwise_map]
      exact (sortCfgs_pairwise cfgs).filter _
    · exact List.chain'_nil
  · rfl

/-- Claim C8, witness: the concrete `[5, 50, 1]` instance via the
theorem. -/
theorem C8_descending_execution_witness :
    buildQueue [⟨"a", 5, Lang.cpp⟩, ⟨"b", 50, Lang.cpp⟩, ⟨"c", 1, Lang.cpp⟩]
        [("Path Complexity")] [("a"), ("b"), ("c")] =
      [(⟨"b", 50, Lang.cpp⟩, "Path Complexity"), (⟨"a", 5, Lang.cpp⟩, "Path Complexity"),
       (⟨"c", 1, Lang.cpp⟩, "Path Complexity")] :=
  (C8_descending_execution [⟨"a", 5, Lang.cpp⟩, ⟨"b", 50, Lang.cpp⟩, ⟨"c", 1, Lang.cpp⟩]
    [("Path Complexity")] [("a"), ("b"), ("c")] ("Path Complexity") (by decide)).2

/-- Claim C9.  For `numloops ≥ 1`, `recurlists(numloops, points)` returns
exactly the weak compositions of `points` into `numloops` parts: the
output has no duplicates, and a list is in it exactly when it has length
`numloops` and sum `points` (entries are naturals, hence non-negative). -/
theorem C9_recurlists_weak_compositions (n p : Nat) (h : 1 ≤ n) :
    (recurlists n p).Nodup ∧ ∀ l : List Nat, l ∈ recurlists n p ↔ l.length = n ∧ l.sum = p := by
  obtain ⟨m, rfl⟩ := Nat.exists_eq_add_of_le h
  rw [Nat.add_comm 1 m]
  exact recurlists_aux m p

/-- Claim C9, witness: `numloops = 2`, `points = 2`. -/
theorem C9_recurlists_weak_compositions_witness :
    (recurlists 2 2).Nodup ∧
      ([0, 2] ∈ recurlists 2 2 ↔ ([0, 2] : List Nat).length = 2 ∧ ([0, 2] : List Nat).sum = 2) :=
  ⟨(C9_recurlists_weak_compositions 2 2 (by decide)).1,
   (C9_recurlists_weak_compositions 2 2 (by decide)).2 [0, 2]⟩

/-- Claim C10, counterexample.  With `num = 1`, grammar `{x → aaa}` and
start string `"x"` (length 1 ≤ num), `getLang` returns `["aaa"]`, a string
of length 3 > num, and `recursion`'s indexed write
`returnlist[len(str)] += 1` into the length-2 list is out of bounds (the
embedded `recursion` returns `none`, Python raises `IndexError`). -/
theorem C10_counterexample :
    getLang 1 [('x', "aaa")] 5 ("x") = some [("aaa")]
    ∧ ¬ (("aaa" : String).length ≤ 1)
    ∧ recursion 1 [('x', "aaa")] ("x") 5 = none := by
  refine ⟨rfl, by decide, rfl⟩

/-- Claim C10, amended.  Strings returned by `getLang` are bounded by
`max (len start) (num * E)` where `E` is the largest production
alternative length (at least 1) — not by `num` itself; with a production
longer than one character the bound `num` fails and the indexed write in
`recursion` can be out of bounds. -/
theorem C10_amended_length_bound (num : Nat) (d : RuleDict) :
    ∀ (fuel : Nat) (cur : String) (res : List String), getLang num d fuel cur = some res →
      ∀ s ∈ res, s.length ≤ max cur.length (num * expansionBound d) := by
  intro fuel
  induction fuel with
  | zero => intro cur res h; simp [getLang] at h
  | succ fuel ih =>
    intro cur res h s hs
    rw [getLang] at h
    split at h
    · rw [Option.some.injEq] at h
      subst h
      rw [List.mem_singleton] at hs
      subst hs
      exact le_max_left _ _
    · split at h
      · next hdone hle =>
        obtain ⟨s', hs', r, hr, hsr⟩ := goLang_mem _ res h s hs
        have h1 := ih s' r hr s hsr
        have h2 : s'.length ≤ num * expansionBound d :=
          le_trans (getNextStrings_length_le hs') (Nat.mul_le_mul_right _ hle)
        exact le_trans (le_trans h1 (max_le h2 (le_refl _))) (le_max_right _ _)
      · rw [Option.some.injEq] at h
        subst h
        exact absurd hs (List.not_mem_nil s)

/-- Claim C10, witness: the bound applied to the counterexample run. -/
theorem C10_amended_length_bound_witness :
    ("aaa" : String).length ≤ max ("x" : String).length (1 * expansionBound [('x', "aaa")]) :=
  C10_amended_length_bound 1 [('x', "aaa")] 5 ("x") [("aaa")] rfl ("aaa") (by decide)

end QDat
